import Mathlib

/-!
Verification of the instinct_trading Solana program
(src/programs/solana-program/src/lib.rs).

The program's instruction handlers are embedded as pure Lean functions over
an explicit state.  Machine integers (u8/u16/u64/u128) are modelled as Nat;
truncating casts (the Rust expression x as u64) are written explicitly as
mod 2 to the 64, the u128 checked_mul is modelled as an Option (none models
the panicking unwrap of a None), and u128 division by zero is likewise
modelled as none (a Rust panic).  A handler returning Except.error e models
a failed transaction: the Solana runtime rolls the whole transaction back,
so the pre-state persists unchanged.

Host-environment concerns (account resolution via PDA seeds, signature and
has_one authority checks, SPL token transfers) are out of the handlers and
are modelled as side conditions of the Step relation: a deposit step only
fires for a user without an existing participation account (the Anchor
init constraint), token amounts supplied on the wire fit in u64, the vault
(an SPL token account with a u64 amount) can absorb the incoming transfer,
and u64 overflow of the accumulator aborts the transaction (release builds
of Anchor workspaces compile with overflow-checks enabled).
-/

namespace InstinctTrading

def U64CAP : Nat := 2 ^ 64

def U128CAP : Nat := 2 ^ 128

def U16CAP : Nat := 2 ^ 16

def U8CAP : Nat := 2 ^ 8

/-- RunStatus from lib.rs: Waiting (accepting deposits), Active (trading),
Settled (ready for withdrawals). -/
inductive RunStatus
  | Waiting
  | Active
  | Settled
deriving DecidableEq, Repr

/-- ErrorCode enum from lib.rs. -/
inductive ErrorCode
  | InvalidFee
  | PlatformPaused
  | PlatformNotPaused
  | InvalidDepositAmount
  | InvalidParticipantLimit
  | RunNotInWaitingPhase
  | DepositTooLow
  | DepositTooHigh
  | RunFull
  | InvalidRunStatus
  | NoParticipants
  | InvalidSharesCount
  | VaultBalanceMismatch
  | RunNotSettled
  | AlreadyWithdrawn
  | InsufficientVaultFunds
deriving DecidableEq, Repr

/-- Platform account (lib.rs lines 297-308).  The authority Pubkey and the
PDA bump are host-level addressing data and are omitted; user identities
are modelled as Nat throughout. -/
structure Platform where
  platform_fee_bps : Nat
  total_runs : Nat
  is_paused : Bool
deriving DecidableEq, Repr

/-- Run account (lib.rs lines 310-329), minus the authority/bump
addressing fields. -/
structure Run where
  run_id : Nat
  status : RunStatus
  total_deposited : Nat
  final_balance : Nat
  participant_count : Nat
  min_deposit : Nat
  max_deposit : Nat
  max_participants : Nat
  created_at : Int
  started_at : Int
  ended_at : Int
deriving DecidableEq, Repr

/-- UserParticipation account (lib.rs lines 331-345), minus the bump. -/
structure UserParticipation where
  user : Nat
  run_id : Nat
  deposit_amount : Nat
  final_share : Nat
  withdrawn : Bool
  correct_votes : Nat
  total_votes : Nat
deriving DecidableEq, Repr

/-- ParticipantShare helper struct (lib.rs lines 610-614). -/
structure ParticipantShare where
  user : Nat
  share_amount : Nat
deriving DecidableEq, Repr

/-- The state touched by one run: the platform singleton, the run account,
its participation ledger, and the run vault's SPL token balance. -/
structure St where
  platform : Platform
  run : Run
  parts : List UserParticipation
  vault : Nat
deriving DecidableEq, Repr

/-- create_run handler (lib.rs lines 38-71): validates bounds, allocates a
fresh Waiting run, and bumps the platform run counter.  The fresh run and
an empty ledger plus a zero-balance vault (create_run_vault initialises an
empty token account) form the initial per-run state. -/
def create_run (p : Platform) (run_id min_deposit max_deposit max_participants : Nat)
    (now : Int) : Except ErrorCode St :=
  if p.is_paused then .error .PlatformPaused
  else if ¬ min_deposit > 0 then .error .InvalidDepositAmount
  else if ¬ max_deposit ≥ min_deposit then .error .InvalidDepositAmount
  else if ¬ max_participants > 0 then .error .InvalidParticipantLimit
  else .ok
    { platform := { p with total_runs := p.total_runs + 1 }
      run :=
        { run_id := run_id
          status := .Waiting
          total_deposited := 0
          final_balance := 0
          participant_count := 0
          min_deposit := min_deposit
          max_deposit := max_deposit
          max_participants := max_participants
          created_at := now
          started_at := 0
          ended_at := 0 }
      parts := []
      vault := 0 }

/-- deposit handler (lib.rs lines 74-116): the five require checks in
source order, then the token transfer into the vault, the fresh
participation record, and the run totals update. -/
def deposit (s : St) (run_id user amount : Nat) : Except ErrorCode St :=
  if s.platform.is_paused then .error .PlatformPaused
  else if ¬ s.run.status = .Waiting then .error .RunNotInWaitingPhase
  else if ¬ amount ≥ s.run.min_deposit then .error .DepositTooLow
  else if ¬ amount ≤ s.run.max_deposit then .error .DepositTooHigh
  else if ¬ s.run.participant_count < s.run.max_participants then .error .RunFull
  else .ok
    { s with
      vault := s.vault + amount
      parts := s.parts ++
        [{ user := user
           run_id := run_id
           deposit_amount := amount
           final_share := 0
           withdrawn := false
           correct_votes := 0
           total_votes := 0 }]
      run :=
        { s.run with
          total_deposited := s.run.total_deposited + amount
          participant_count := s.run.participant_count + 1 } }

/-- start_run handler (lib.rs lines 119-134). -/
def start_run (s : St) (now : Int) : Except ErrorCode St :=
  if ¬ s.run.status = .Waiting then .error .InvalidRunStatus
  else if ¬ s.run.participant_count > 0 then .error .NoParticipants
  else .ok { s with run := { s.run with status := .Active, started_at := now } }

/-- settle_run handler (lib.rs lines 137-175): requires Active, the shares
list length to match participant_count, and the observed vault balance to
equal the reported final_balance; then records settlement.  The
participant_shares values are otherwise unused by the handler. -/
def settle_run (s : St) (final_balance : Nat) (participant_shares : List ParticipantShare)
    (now : Int) : Except ErrorCode St :=
  if ¬ s.run.status = .Active then .error .InvalidRunStatus
  else if ¬ participant_shares.length = s.run.participant_count then .error .InvalidSharesCount
  else if ¬ s.vault = final_balance then .error .VaultBalanceMismatch
  else .ok
    { s with
      run :=
        { s.run with
          status := .Settled
          final_balance := final_balance
          ended_at := now } }

/-- u128 checked_mul: none models the None that the source immediately
unwraps (a panic). -/
def checked_mul_u128 (a b : Nat) : Option Nat :=
  if a * b < U128CAP then some (a * b) else none

/-- The share arithmetic of the withdraw handler (lib.rs lines 191-199):
base numerator as u128 checked_mul + unwrap, u128 division by
total_deposited (none models the division-by-zero panic), the truncating
as-u64 casts written as mod 2 to the 64, the vote-bonus basis points, and
the final u64 addition (none models the overflow abort). -/
def computeShare (total_deposited final_balance deposit_amount correct_votes : Nat) :
    Option Nat :=
  match checked_mul_u128 deposit_amount final_balance with
  | none => none
  | some base_share_numerator =>
    if total_deposited = 0 then none
    else
      let user_share := (base_share_numerator / total_deposited) % U64CAP
      let correct_vote_bonus_bps := correct_votes * 100
      let bonus := (user_share * correct_vote_bonus_bps / 10000) % U64CAP
      if user_share + bonus < U64CAP then some (user_share + bonus) else none

/-- withdraw handler (lib.rs lines 178-228) on the resolved accounts:
requires Settled and not yet withdrawn, computes the share, guards it
against the vault balance, then transfers and records.  The outer none
models an arithmetic panic inside the handler (also a failed transaction,
but not one of the program's typed errors). -/
def withdraw (run : Run) (p : UserParticipation) (vault : Nat) :
    Option (Except ErrorCode (UserParticipation × Nat)) :=
  if ¬ run.status = .Settled then some (.error .RunNotSettled)
  else if p.withdrawn then some (.error .AlreadyWithdrawn)
  else
    match computeShare run.total_deposited run.final_balance p.deposit_amount
        p.correct_votes with
    | none => none
    | some user_share =>
      if ¬ user_share ≤ vault then some (.error .InsufficientVaultFunds)
      else some (.ok ({ p with final_share := user_share, withdrawn := true },
        vault - user_share))

/-- update_vote_stats handler (lib.rs lines 231-246): requires Active and
overwrites the two counters with the caller-supplied values, with no
further validation. -/
def update_vote_stats (run : Run) (p : UserParticipation) (correct_votes total_votes : Nat) :
    Except ErrorCode UserParticipation :=
  if ¬ run.status = .Active then .error .InvalidRunStatus
  else .ok { p with correct_votes := correct_votes, total_votes := total_votes }

/-- pause_platform handler (lib.rs lines 249-253). -/
def pause_platform (p : Platform) : Platform :=
  { p with is_paused := true }

/-- unpause_platform handler (lib.rs lines 256-260). -/
def unpause_platform (p : Platform) : Platform :=
  { p with is_paused := false }

/-- emergency_withdraw handler (lib.rs lines 263-290): requires the
platform paused, then transfers the amount out of the vault. -/
def emergency_withdraw (p : Platform) (vault amount : Nat) : Except ErrorCode Nat :=
  if ¬ p.is_paused then .error .PlatformNotPaused
  else .ok (vault - amount)

/-- Account lookup for a participation record (Anchor resolves the PDA
from (run_id, user)). -/
def findPart (l : List UserParticipation) (u : Nat) : Option UserParticipation :=
  l.find? (fun p => p.user == u)

/-- Writing back a mutated participation record. -/
def setPart (l : List UserParticipation) (u : Nat) (q : UserParticipation) :
    List UserParticipation :=
  l.map (fun p => if p.user == u then q else p)

/-- The instructions that can act on an existing run, plus the external
trading process that moves the vault balance while the run is Active. -/
inductive Op
  | OpDeposit (run_id user amount : Nat)
  | OpStart (now : Int)
  | OpSettle (final_balance : Nat) (shares : List ParticipantShare) (now : Int)
  | OpWithdraw (user : Nat)
  | OpVote (user correct_votes total_votes : Nat)
  | OpPause
  | OpUnpause
  | OpTrade (v : Nat)
  | OpEmergency (amount : Nat)
deriving DecidableEq

/-- One successfully committed transaction (or external vault movement) on
the run.  Handler failures commit nothing, so only ok results advance the
state.  Side conditions model the host environment: wire arguments fit
their integer types, Anchor account init rejects a second participation
account for the same user, the seeds tie the instruction to this run, the
SPL vault (u64) can absorb an incoming transfer, and u64 overflow of
total_deposited aborts the transaction. -/
inductive Step : St → Op → St → Prop
  | dep {s : St} {rid u a : Nat} {s' : St} :
      rid = s.run.run_id →
      a < U64CAP →
      s.vault + a < U64CAP →
      s.run.total_deposited + a < U64CAP →
      findPart s.parts u = none →
      deposit s rid u a = .ok s' →
      Step s (.OpDeposit rid u a) s'
  | strt {s : St} {now : Int} {s' : St} :
      start_run s now = .ok s' →
      Step s (.OpStart now) s'
  | settle {s : St} {fb : Nat} {sh : List ParticipantShare} {now : Int} {s' : St} :
      fb < U64CAP →
      settle_run s fb sh now = .ok s' →
      Step s (.OpSettle fb sh now) s'
  | wdraw {s : St} {u : Nat} {p p' : UserParticipation} {v' : Nat} :
      findPart s.parts u = some p →
      withdraw s.run p s.vault = some (.ok (p', v')) →
      Step s (.OpWithdraw u) { s with parts := setPart s.parts u p', vault := v' }
  | vote {s : St} {u c t : Nat} {p p' : UserParticipation} :
      c < U8CAP →
      t < U8CAP →
      findPart s.parts u = some p →
      update_vote_stats s.run p c t = .ok p' →
      Step s (.OpVote u c t) { s with parts := setPart s.parts u p' }
  | pause {s : St} :
      Step s .OpPause { s with platform := pause_platform s.platform }
  | unpause {s : St} :
      Step s .OpUnpause { s with platform := unpause_platform s.platform }
  | trade {s : St} {v : Nat} :
      s.run.status = .Active →
      v < U64CAP →
      Step s (.OpTrade v) { s with vault := v }
  | emergency {s : St} {a v' : Nat} :
      a ≤ s.vault →
      emergency_withdraw s.platform s.vault a = .ok v' →
      Step s (.OpEmergency a) { s with vault := v' }

/-- States reachable for a run: a successful create_run (with wire
arguments in their integer ranges) followed by any sequence of committed
steps. -/
inductive Reachable : St → Prop
  | created {p : Platform} {rid mind maxd maxp : Nat} {now : Int} {s : St} :
      mind < U64CAP →
      maxd < U64CAP →
      maxp < U16CAP →
      create_run p rid mind maxd maxp now = .ok s →
      Reachable s
  | step {s : St} {op : Op} {s' : St} :
      Reachable s →
      Step s op s' →
      Reachable s'

/-- A finite schedule of committed steps, used to state properties of all
executions whose operations satisfy a side condition. -/
inductive Trace : St → List Op → St → Prop
  | nil {s : St} : Trace s [] s
  | cons {s : St} {op : Op} {s' : St} {ops : List Op} {s'' : St} :
      Step s op s' →
      Trace s' ops s'' →
      Trace s (op :: ops) s''

/-! Inversion lemmas: each handler's success is equivalent to its require
chain passing plus the exact state update it commits. -/

theorem create_run_ok_iff {p : Platform} {rid mind maxd maxp : Nat} {now : Int} {s : St} :
    create_run p rid mind maxd maxp now = .ok s ↔
      (p.is_paused = false ∧ 0 < mind ∧ mind ≤ maxd ∧ 0 < maxp ∧
        s = { platform := { p with total_runs := p.total_runs + 1 }
              run := ⟨rid, .Waiting, 0, 0, 0, mind, maxd, maxp, now, 0, 0⟩
              parts := []
              vault := 0 }) := by
  unfold create_run
  split_ifs with h1 h2 h3 h4
  all_goals simp_all
  all_goals try exact eq_comm

theorem deposit_ok_iff {s : St} {rid u a : Nat} {s' : St} :
    deposit s rid u a = .ok s' ↔
      (s.platform.is_paused = false ∧ s.run.status = .Waiting ∧
        s.run.min_deposit ≤ a ∧ a ≤ s.run.max_deposit ∧
        s.run.participant_count < s.run.max_participants ∧
        s' = { s with
          vault := s.vault + a
          parts := s.parts ++ [⟨u, rid, a, 0, false, 0, 0⟩]
          run := { s.run with
            total_deposited := s.run.total_deposited + a
            participant_count := s.run.participant_count + 1 } }) := by
  unfold deposit
  split_ifs with h1 h2 h3 h4 h5
  all_goals simp_all
  all_goals try exact eq_comm

theorem start_run_ok_iff {s : St} {now : Int} {s' : St} :
    start_run s now = .ok s' ↔
      (s.run.status = .Waiting ∧ 0 < s.run.participant_count ∧
        s' = { s with run := { s.run with status := .Active, started_at := now } }) := by
  unfold start_run
  split_ifs with h1 h2
  all_goals simp_all
  all_goals try exact eq_comm

theorem settle_run_ok_iff {s : St} {fb : Nat} {sh : List ParticipantShare} {now : Int}
    {s' : St} :
    settle_run s fb sh now = .ok s' ↔
      (s.run.status = .Active ∧ sh.length = s.run.participant_count ∧ s.vault = fb ∧
        s' = { s with
          run := { s.run with status := .Settled, final_balance := fb, ended_at := now } }) := by
  unfold settle_run
  split_ifs with h1 h2 h3
  all_goals simp_all
  all_goals try exact eq_comm

theorem withdraw_ok_iff {run : Run} {p p' : UserParticipation} {vault v' : Nat} :
    withdraw run p vault = some (.ok (p', v')) ↔
      (run.status = .Settled ∧ p.withdrawn = false ∧
        ∃ us, computeShare run.total_deposited run.final_balance p.deposit_amount
            p.correct_votes = some us ∧
          us ≤ vault ∧
          p' = { p with final_share := us, withdrawn := true } ∧
          v' = vault - us) := by
  unfold withdraw
  cases hc : computeShare run.total_deposited run.final_balance p.deposit_amount
      p.correct_votes with
  | none => split_ifs with h1 h2 <;> simp_all
  | some us =>
    by_cases h1 : run.status = .Settled
    · by_cases h2 : p.withdrawn
      · simp [h1, h2]
      · by_cases h3 : us ≤ vault
        · simp [h1, h2, h3]
          constructor
          · rintro ⟨hp, hv⟩
            exact ⟨hp.symm, hv.symm⟩
          · rintro ⟨hp, hv⟩
            exact ⟨hp.symm, hv.symm⟩
        · simp [h1, h2, h3]
    · simp [h1]

theorem update_vote_stats_ok_iff {run : Run} {p p' : UserParticipation} {c t : Nat} :
    update_vote_stats run p c t = .ok p' ↔
      (run.status = .Active ∧ p' = { p with correct_votes := c, total_votes := t }) := by
  unfold update_vote_stats
  split_ifs with h1
  all_goals simp_all
  all_goals try exact eq_comm

theorem emergency_withdraw_ok_iff {p : Platform} {vault a v' : Nat} :
    emergency_withdraw p vault a = .ok v' ↔
      (p.is_paused = true ∧ v' = vault - a) := by
  unfold emergency_withdraw
  split_ifs with h1
  all_goals simp_all
  all_goals try exact eq_comm

/-! Ledger-lookup lemmas. -/

theorem findPart_eq_none {l : List UserParticipation} {u : Nat} :
    findPart l u = none ↔ ∀ p ∈ l, p.user ≠ u := by
  unfold findPart
  simp [List.find?_eq_none]

theorem findPart_mem {l : List UserParticipation} {u : Nat} {p : UserParticipation}
    (h : findPart l u = some p) : p ∈ l ∧ p.user = u := by
  unfold findPart at h
  refine ⟨List.mem_of_find?_eq_some h, ?_⟩
  have := List.find?_some h
  simpa using this

theorem setPart_map_eq {l : List UserParticipation} {u : Nat} {q : UserParticipation}
    {α : Type} (f : UserParticipation → α)
    (hf : ∀ p ∈ l, p.user = u → f q = f p) :
    (setPart l u q).map f = l.map f := by
  unfold setPart
  rw [List.map_map]
  apply List.map_congr_left
  intro a ha
  by_cases hu : a.user = u
  · simpa [Function.comp, hu] using hf a ha hu
  · simp [Function.comp, hu]

theorem mem_setPart {l : List UserParticipation} {u : Nat} {q x : UserParticipation}
    (h : x ∈ setPart l u q) : x ∈ l ∨ x = q := by
  unfold setPart at h
  rcases List.mem_map.mp h with ⟨y, hy, hyx⟩
  by_cases hyu : y.user = u
  · right
    simp [hyu] at hyx
    exact hyx.symm
  · left
    simp [hyu] at hyx
    exact hyx ▸ hy

theorem findPart_setPart_self {l : List UserParticipation} {u : Nat}
    {p q : UserParticipation} (h : findPart l u = some p) (hq : q.user = u) :
    findPart (setPart l u q) u = some q := by
  unfold findPart setPart at *
  induction l with
  | nil => simp at h
  | cons a l ih =>
    by_cases ha : a.user = u
    · simp [ha, hq]
    · simp only [List.find?_cons] at h
      rw [show ((a.user == u)) = false by simp [ha]] at h
      simp only [List.map_cons]
      rw [show ((if a.user == u then q else a)) = a by simp [ha]]
      simp only [List.find?_cons]
      rw [show ((a.user == u)) = false by simp [ha]]
      exact ih h

theorem findPart_setPart_other {l : List UserParticipation} {u w : Nat}
    {q : UserParticipation} (hq : q.user = u) (hw : w ≠ u) :
    findPart (setPart l u q) w = findPart l w := by
  unfold findPart setPart
  induction l with
  | nil => simp
  | cons a l ih =>
    by_cases ha : a.user = u
    · simp only [List.map_cons]
      rw [show ((if a.user == u then q else a)) = q by simp [ha]]
      simp only [List.find?_cons]
      rw [show ((q.user == w)) = false by simp [hq]; omega]
      rw [show ((a.user == w)) = false by simp [ha]; omega]
      exact ih
    · simp only [List.map_cons]
      rw [show ((if a.user == u then q else a)) = a by simp [ha]]
      simp only [List.find?_cons]
      cases haw : (a.user == w) with
      | true => simp
      | false => exact ih

/-! The reachable-state invariant: deposit accounting, ledger uniqueness,
and field bounds. -/

structure Inv (s : St) : Prop where
  conserve : s.run.total_deposited = (s.parts.map (fun p => p.deposit_amount)).sum
  count : s.run.participant_count = s.parts.length
  rid : ∀ p ∈ s.parts, p.run_id = s.run.run_id
  nodup : (s.parts.map (fun p => p.user)).Nodup
  min_pos : 0 < s.run.min_deposit
  dep_ge : ∀ p ∈ s.parts, s.run.min_deposit ≤ p.deposit_amount
  dep_lt : ∀ p ∈ s.parts, p.deposit_amount < U64CAP
  fb_lt : s.run.final_balance < U64CAP
  nonwaiting : s.run.status ≠ .Waiting → 0 < s.run.participant_count

theorem inv_step {s : St} {op : Op} {s' : St} (hstep : Step s op s') (hinv : Inv s) :
    Inv s' := by
  cases hstep with
  | dep hrid ha hva hta hfree hok =>
    rename_i rid u a
    obtain ⟨hp, hw, hmin, hmax, hcap, hs'⟩ := deposit_ok_iff.mp hok
    subst hs'
    refine ⟨?_, ?_, ?_, ?_, hinv.min_pos, ?_, ?_, hinv.fb_lt, ?_⟩
    · simp [hinv.conserve]
    · simp [hinv.count]
    · intro p hp'
      rcases List.mem_append.mp hp' with h | h
      · exact hinv.rid p h
      · simp at h
        simp [h, hrid]
    · have hnotin : u ∉ s.parts.map (fun p => p.user) := by
        intro hmem
        rcases List.mem_map.mp hmem with ⟨p, hp', hpu⟩
        exact (findPart_eq_none.mp hfree p hp') hpu
      simp only [List.map_append, List.map_cons, List.map_nil]
      exact List.Nodup.append hinv.nodup (List.nodup_singleton u)
        (by simpa [List.disjoint_singleton] using hnotin)
    · intro p hp'
      rcases List.mem_append.mp hp' with h | h
      · exact hinv.dep_ge p h
      · simp at h
        simp [h, hmin]
    · intro p hp'
      rcases List.mem_append.mp hp' with h | h
      · exact hinv.dep_lt p h
      · simp at h
        simp [h, ha]
    · simp [hw]
  | strt hok =>
    obtain ⟨hw, hc, hs'⟩ := start_run_ok_iff.mp hok
    subst hs'
    exact ⟨hinv.conserve, hinv.count, hinv.rid, hinv.nodup, hinv.min_pos,
      hinv.dep_ge, hinv.dep_lt, hinv.fb_lt, fun _ => hc⟩
  | settle hfb hok =>
    obtain ⟨hact, hlen, hv, hs'⟩ := settle_run_ok_iff.mp hok
    subst hs'
    exact ⟨hinv.conserve, hinv.count, hinv.rid, hinv.nodup, hinv.min_pos,
      hinv.dep_ge, hinv.dep_lt, hfb, fun _ => hinv.nonwaiting (by simp [hact])⟩
  | wdraw hfind hok =>
    obtain ⟨hsettled, hwdn, us, hcs, hle, hp', hv'⟩ := withdraw_ok_iff.mp hok
    obtain ⟨hmem, huser⟩ := findPart_mem hfind
    rename_i u p p' v'
    subst hp'
    have hsame : ∀ r ∈ s.parts, r.user = u → r = p := fun r hr hru =>
      List.inj_on_of_nodup_map hinv.nodup hr hmem (hru.trans huser.symm)
    refine ⟨?_, ?_, ?_, ?_, hinv.min_pos, ?_, ?_, hinv.fb_lt, hinv.nonwaiting⟩
    · rw [hinv.conserve,
        setPart_map_eq (fun r => r.deposit_amount) (fun r hr hru => by rw [hsame r hr hru])]
    · simpa [setPart] using hinv.count
    · intro q hq
      rcases mem_setPart hq with h | h
      · exact hinv.rid q h
      · subst h
        exact hinv.rid p hmem
    · rw [setPart_map_eq (fun r => r.user) (fun r hr hru => by rw [hsame r hr hru])]
      exact hinv.nodup
    · intro q hq
      rcases mem_setPart hq with h | h
      · exact hinv.dep_ge q h
      · subst h
        exact hinv.dep_ge p hmem
    · intro q hq
      rcases mem_setPart hq with h | h
      · exact hinv.dep_lt q h
      · subst h
        exact hinv.dep_lt p hmem
  | vote hc ht hfind hok =>
    obtain ⟨hact, hp'⟩ := update_vote_stats_ok_iff.mp hok
    obtain ⟨hmem, huser⟩ := findPart_mem hfind
    rename_i u c t p p'
    subst hp'
    have hsame : ∀ r ∈ s.parts, r.user = u → r = p := fun r hr hru =>
      List.inj_on_of_nodup_map hinv.nodup hr hmem (hru.trans huser.symm)
    refine ⟨?_, ?_, ?_, ?_, hinv.min_pos, ?_, ?_, hinv.fb_lt, hinv.nonwaiting⟩
    · rw [hinv.conserve,
        setPart_map_eq (fun r => r.deposit_amount) (fun r hr hru => by rw [hsame r hr hru])]
    · simpa [setPart] using hinv.count
    · intro q hq
      rcases mem_setPart hq with h | h
      · exact hinv.rid q h
      · subst h
        exact hinv.rid p hmem
    · rw [setPart_map_eq (fun r => r.user) (fun r hr hru => by rw [hsame r hr hru])]
      exact hinv.nodup
    · intro q hq
      rcases mem_setPart hq with h | h
      · exact hinv.dep_ge q h
      · subst h
        exact hinv.dep_ge p hmem
    · intro q hq
      rcases mem_setPart hq with h | h
      · exact hinv.dep_lt q h
      · subst h
        exact hinv.dep_lt p hmem
  | pause =>
    exact ⟨hinv.conserve, hinv.count, hinv.rid, hinv.nodup, hinv.min_pos,
      hinv.dep_ge, hinv.dep_lt, hinv.fb_lt, hinv.nonwaiting⟩
  | unpause =>
    exact ⟨hinv.conserve, hinv.count, hinv.rid, hinv.nodup, hinv.min_pos,
      hinv.dep_ge, hinv.dep_lt, hinv.fb_lt, hinv.nonwaiting⟩
  | trade hact hv =>
    exact ⟨hinv.conserve, hinv.count, hinv.rid, hinv.nodup, hinv.min_pos,
      hinv.dep_ge, hinv.dep_lt, hinv.fb_lt, hinv.nonwaiting⟩
  | emergency hle hok =>
    exact ⟨hinv.conserve, hinv.count, hinv.rid, hinv.nodup, hinv.min_pos,
      hinv.dep_ge, hinv.dep_lt, hinv.fb_lt, hinv.nonwaiting⟩

theorem inv_reachable {s : St} (h : Reachable s) : Inv s := by
  induction h with
  | created hmind hmaxd hmaxp hok =>
    obtain ⟨hp, hmin, hmm, hmp, hs⟩ := create_run_ok_iff.mp hok
    subst hs
    exact ⟨rfl, rfl, by simp, by simp, hmin, by simp, by simp,
      by simp [U64CAP], by simp⟩
  | step hr hstep ih => exact inv_step hstep ih

/-! A concrete run, following the worked example of the specification:
min 10, max 100, capacity 2; user 1 deposits 40, user 2 deposits 60; the
run starts, vote statistics arrive, trading moves the vault from 100 to
120, and the run settles at 120. -/

def platform0 : Platform := ⟨1500, 0, false⟩

def pA0 : UserParticipation := ⟨1, 1, 40, 0, false, 0, 0⟩

def pB0 : UserParticipation := ⟨2, 1, 60, 0, false, 0, 0⟩

def pA1 : UserParticipation := ⟨1, 1, 40, 0, false, 12, 12⟩

def pB1 : UserParticipation := ⟨2, 1, 60, 0, false, 12, 12⟩

def pA2 : UserParticipation := ⟨1, 1, 40, 53, true, 12, 12⟩

def pAx : UserParticipation := ⟨1, 1, 40, 0, false, 255, 0⟩

def s0 : St := ⟨⟨1500, 1, false⟩, ⟨1, .Waiting, 0, 0, 0, 10, 100, 2, 0, 0, 0⟩, [], 0⟩

def s1 : St := ⟨⟨1500, 1, false⟩, ⟨1, .Waiting, 40, 0, 1, 10, 100, 2, 0, 0, 0⟩, [pA0], 40⟩

def s2 : St :=
  ⟨⟨1500, 1, false⟩, ⟨1, .Waiting, 100, 0, 2, 10, 100, 2, 0, 0, 0⟩, [pA0, pB0], 100⟩

def s3 : St :=
  ⟨⟨1500, 1, false⟩, ⟨1, .Active, 100, 0, 2, 10, 100, 2, 0, 5, 0⟩, [pA0, pB0], 100⟩

def s4 : St :=
  ⟨⟨1500, 1, false⟩, ⟨1, .Active, 100, 0, 2, 10, 100, 2, 0, 5, 0⟩, [pA1, pB0], 100⟩

def s5 : St :=
  ⟨⟨1500, 1, false⟩, ⟨1, .Active, 100, 0, 2, 10, 100, 2, 0, 5, 0⟩, [pA1, pB1], 100⟩

def s6 : St :=
  ⟨⟨1500, 1, false⟩, ⟨1, .Active, 100, 0, 2, 10, 100, 2, 0, 5, 0⟩, [pA1, pB1], 120⟩

def s7 : St :=
  ⟨⟨1500, 1, false⟩, ⟨1, .Settled, 100, 120, 2, 10, 100, 2, 0, 5, 9⟩, [pA1, pB1], 120⟩

def s8 : St :=
  ⟨⟨1500, 1, false⟩, ⟨1, .Settled, 100, 120, 2, 10, 100, 2, 0, 5, 9⟩, [pA2, pB1], 67⟩

def s4x : St :=
  ⟨⟨1500, 1, false⟩, ⟨1, .Active, 100, 0, 2, 10, 100, 2, 0, 5, 0⟩, [pAx, pB0], 100⟩

theorem reach_s0 : Reachable s0 :=
  @Reachable.created platform0 1 10 100 2 0 s0 (by decide) (by decide) (by decide) rfl

theorem reach_s1 : Reachable s1 :=
  Reachable.step reach_s0 (@Step.dep s0 1 1 40 s1 rfl (by decide) (by decide) (by decide) rfl rfl)

theorem reach_s2 : Reachable s2 :=
  Reachable.step reach_s1 (@Step.dep s1 1 2 60 s2 rfl (by decide) (by decide) (by decide) rfl rfl)

theorem reach_s3 : Reachable s3 :=
  Reachable.step reach_s2 (@Step.strt s2 5 s3 rfl)

theorem reach_s4 : Reachable s4 :=
  Reachable.step reach_s3 (@Step.vote s3 1 12 12 pA0 pA1 (by decide) (by decide) rfl rfl)

theorem reach_s5 : Reachable s5 :=
  Reachable.step reach_s4 (@Step.vote s4 2 12 12 pB0 pB1 (by decide) (by decide) rfl rfl)

theorem reach_s6 : Reachable s6 :=
  Reachable.step reach_s5 (@Step.trade s5 120 rfl (by decide))

theorem reach_s7 : Reachable s7 :=
  Reachable.step reach_s6 (@Step.settle s6 120 [⟨1, 48⟩, ⟨2, 72⟩] 9 s7 (by decide) rfl)

theorem reach_s8 : Reachable s8 :=
  Reachable.step reach_s7 (@Step.wdraw s7 1 pA1 pA2 67 rfl rfl)

theorem reach_s4x : Reachable s4x :=
  Reachable.step reach_s3 (@Step.vote s3 1 255 0 pA0 pAx (by decide) (by decide) rfl rfl)

/-- C1: on every reachable state of a run (any sequence of accepted
deposits and other committed operations), total_deposited equals the exact
sum of deposit_amount over the run's ParticipationLedger entries, every
entry carries this run_id, and participant_count equals the number of
entries. -/
theorem C1_deposit_conservation {s : St} (h : Reachable s) :
    s.run.total_deposited = (s.parts.map (fun p => p.deposit_amount)).sum ∧
      s.run.participant_count = s.parts.length ∧
      ∀ p ∈ s.parts, p.run_id = s.run.run_id := by
  have hi := inv_reachable h
  exact ⟨hi.conserve, hi.count, hi.rid⟩

/-- C1 witness: the conservation equalities evaluated on the concrete
two-deposit state. -/
theorem C1_deposit_conservation_witness :
    s2.run.total_deposited = (s2.parts.map (fun p => p.deposit_amount)).sum ∧
      s2.run.participant_count = s2.parts.length ∧
      pA0.run_id = s2.run.run_id :=
  ⟨(C1_deposit_conservation reach_s2).1, (C1_deposit_conservation reach_s2).2.1,
    (C1_deposit_conservation reach_s2).2.2 pA0 (by decide)⟩

/-- C3: deposit succeeds iff the platform is unpaused, the run is Waiting,
the amount is within the per-run bounds, and there is room; each failure
returns the matching error, with the checks performed in the source order
PlatformPaused, RunNotInWaitingPhase, DepositTooLow, DepositTooHigh,
RunFull (the conjuncts below characterise each error exactly by the
earlier checks passing and its own failing). -/
theorem C3_deposit_characterisation (s : St) (rid u a : Nat) :
    ((∃ s', deposit s rid u a = .ok s') ↔
      (s.platform.is_paused = false ∧ s.run.status = .Waiting ∧
        s.run.min_deposit ≤ a ∧ a ≤ s.run.max_deposit ∧
        s.run.participant_count < s.run.max_participants)) ∧
    (s.platform.is_paused = true → deposit s rid u a = .error .PlatformPaused) ∧
    (s.platform.is_paused = false → s.run.status ≠ .Waiting →
      deposit s rid u a = .error .RunNotInWaitingPhase) ∧
    (s.platform.is_paused = false → s.run.status = .Waiting →
      a < s.run.min_deposit → deposit s rid u a = .error .DepositTooLow) ∧
    (s.platform.is_paused = false → s.run.status = .Waiting →
      s.run.min_deposit ≤ a → s.run.max_deposit < a →
      deposit s rid u a = .error .DepositTooHigh) ∧
    (s.platform.is_paused = false → s.run.status = .Waiting →
      s.run.min_deposit ≤ a → a ≤ s.run.max_deposit →
      ¬ s.run.participant_count < s.run.max_participants →
      deposit s rid u a = .error .RunFull) := by
  refine ⟨⟨?_, ?_⟩, ?_, ?_, ?_, ?_, ?_⟩
  · rintro ⟨s', hs'⟩
    have h := deposit_ok_iff.mp hs'
    exact ⟨h.1, h.2.1, h.2.2.1, h.2.2.2.1, h.2.2.2.2.1⟩
  · rintro ⟨h1, h2, h3, h4, h5⟩
    exact ⟨_, deposit_ok_iff.mpr ⟨h1, h2, h3, h4, h5, rfl⟩⟩
  · intro h1
    unfold deposit
    simp [h1]
  · intro h1 h2
    unfold deposit
    simp [h1, h2]
  · intro h1 h2 h3
    unfold deposit
    simp [h1, h2, h3, Nat.not_le.mpr h3]
  · intro h1 h2 h3 h4
    unfold deposit
    simp [h1, h2, h3, Nat.not_le.mpr h4]
  · intro h1 h2 h3 h4 h5
    unfold deposit
    simp [h1, h2, h3, h4, h5]

/-- C3 witness: the DepositTooLow error on a concrete below-minimum
deposit against the concrete Waiting run. -/
theorem C3_deposit_characterisation_witness :
    deposit s0 1 1 5 = .error .DepositTooLow :=
  (C3_deposit_characterisation s0 1 1 5).2.2.2.1 rfl rfl (by decide)

/-- C4: settle_run succeeds iff the run is Active, the shares list length
equals participant_count, and the supplied final_balance equals the
vault's observed balance; on success it records Settled, final_balance
and ended_at, and on each failure it returns the matching error (an
error return models the aborted transaction, whose pre-state - status,
final_balance, ended_at - persists unchanged). -/
theorem C4_settle_characterisation (s : St) (fb : Nat) (sh : List ParticipantShare)
    (now : Int) :
    ((∃ s', settle_run s fb sh now = .ok s') ↔
      (s.run.status = .Active ∧ sh.length = s.run.participant_count ∧ s.vault = fb)) ∧
    (∀ s', settle_run s fb sh now = .ok s' →
      s' = { s with
        run := { s.run with status := .Settled, final_balance := fb, ended_at := now } }) ∧
    (s.run.status ≠ .Active → settle_run s fb sh now = .error .InvalidRunStatus) ∧
    (s.run.status = .Active → sh.length ≠ s.run.participant_count →
      settle_run s fb sh now = .error .InvalidSharesCount) ∧
    (s.run.status = .Active → sh.length = s.run.participant_count → s.vault ≠ fb →
      settle_run s fb sh now = .error .VaultBalanceMismatch) := by
  refine ⟨⟨?_, ?_⟩, ?_, ?_, ?_, ?_⟩
  · rintro ⟨s', hs'⟩
    have h := settle_run_ok_iff.mp hs'
    exact ⟨h.1, h.2.1, h.2.2.1⟩
  · rintro ⟨h1, h2, h3⟩
    exact ⟨_, settle_run_ok_iff.mpr ⟨h1, h2, h3, rfl⟩⟩
  · intro s' hs'
    exact (settle_run_ok_iff.mp hs').2.2.2
  · intro h1
    unfold settle_run
    simp [h1]
  · intro h1 h2
    unfold settle_run
    simp [h1, h2]
  · intro h1 h2 h3
    unfold settle_run
    simp [h1, h2, h3]

/-- C4 witness: settling an already-settled run fails with
InvalidRunStatus, and settling the concrete Active run with a mismatched
balance fails with VaultBalanceMismatch. -/
theorem C4_settle_characterisation_witness :
    settle_run s7 120 [] 9 = .error .InvalidRunStatus ∧
      settle_run s6 119 [⟨1, 48⟩, ⟨2, 72⟩] 9 = .error .VaultBalanceMismatch :=
  ⟨(C4_settle_characterisation s7 120 [] 9).2.2.1 (by decide),
    (C4_settle_characterisation s6 119 [⟨1, 48⟩, ⟨2, 72⟩] 9).2.2.2.2 rfl (by decide)
      (by decide)⟩

/-- C10: on every reachable Settled run, total_deposited is strictly
positive (so the u128 division in withdraw never divides by zero) and for
every ledger entry the u128 checked_mul of deposit_amount and
final_balance (both u64-ranged) returns Some of the exact product, so the
unwrap never panics. -/
theorem C10_withdraw_arithmetic_total {s : St} (h : Reachable s)
    (hsettled : s.run.status = .Settled) :
    0 < s.run.total_deposited ∧
      ∀ p ∈ s.parts,
        checked_mul_u128 p.deposit_amount s.run.final_balance
          = some (p.deposit_amount * s.run.final_balance) := by
  have hi := inv_reachable h
  have hcount : 0 < s.run.participant_count := hi.nonwaiting (by simp [hsettled])
  constructor
  · have hne : s.parts ≠ [] := by
      intro hnil
      rw [hi.count, hnil] at hcount
      simp at hcount
    obtain ⟨p0, hp0⟩ := List.exists_mem_of_ne_nil s.parts hne
    have h1 : p0.deposit_amount ≤ (s.parts.map (fun p => p.deposit_amount)).sum :=
      List.single_le_sum (fun x _ => Nat.zero_le x) _ (List.mem_map_of_mem _ hp0)
    have h2 : 0 < p0.deposit_amount := lt_of_lt_of_le hi.min_pos (hi.dep_ge p0 hp0)
    rw [hi.conserve]
    omega
  · intro p hp
    unfold checked_mul_u128
    rw [if_pos]
    have hlt : p.deposit_amount * s.run.final_balance < U64CAP * U64CAP :=
      Nat.mul_lt_mul'' (hi.dep_lt p hp) hi.fb_lt
    have : U64CAP * U64CAP = U128CAP := by
      unfold U64CAP U128CAP
      rw [← pow_add]
    rw [this] at hlt
    exact hlt

/-- C10 witness: the divisor and multiplication evaluated on the concrete
settled run and its first participant. -/
theorem C10_withdraw_arithmetic_total_witness :
    0 < s7.run.total_deposited ∧
      checked_mul_u128 pA1.deposit_amount s7.run.final_balance
        = some (pA1.deposit_amount * s7.run.final_balance) :=
  ⟨(C10_withdraw_arithmetic_total reach_s7 rfl).1,
    (C10_withdraw_arithmetic_total reach_s7 rfl).2 pA1 (by decide)⟩

/-- The same state with the platform pause flag forced to a given value. -/
def setPaused (s : St) (b : Bool) : St :=
  { s with platform := { s.platform with is_paused := b } }

/-- The operations whose handlers never read the pause flag: settle_run,
withdraw, update_vote_stats. -/
def pauseInsensitive : Op → Prop
  | .OpSettle _ _ _ => True
  | .OpWithdraw _ => True
  | .OpVote _ _ _ => True
  | _ => False

/-- C9: with is_paused true, create_run and deposit always fail with
PlatformPaused, while settle_run, withdraw and update_vote_stats behave
identically whatever the pause flag: any committed step by one of them is
also a committed step, with the same effect, after forcing the flag to
any value. -/
theorem C9_pause_gating :
    (∀ (p : Platform) (rid mind maxd maxp : Nat) (now : Int), p.is_paused = true →
      create_run p rid mind maxd maxp now = .error .PlatformPaused) ∧
    (∀ (s : St) (rid u a : Nat), s.platform.is_paused = true →
      deposit s rid u a = .error .PlatformPaused) ∧
    (∀ (s : St) (op : Op) (s' : St) (b : Bool), pauseInsensitive op →
      Step s op s' → Step (setPaused s b) op (setPaused s' b)) := by
  refine ⟨?_, ?_, ?_⟩
  · intro p rid mind maxd maxp now h
    unfold create_run
    simp [h]
  · intro s rid u a h
    unfold deposit
    simp [h]
  · intro s op s' b hop hstep
    cases hstep with
    | dep hrid ha hva hta hfree hok => exact absurd hop (by simp [pauseInsensitive])
    | strt hok => exact absurd hop (by simp [pauseInsensitive])
    | settle hfb hok =>
      obtain ⟨h1, h2, h3, hs'⟩ := settle_run_ok_iff.mp hok
      subst hs'
      exact Step.settle hfb (settle_run_ok_iff.mpr ⟨h1, h2, h3, rfl⟩)
    | wdraw hfind hok => exact Step.wdraw hfind hok
    | vote hc ht hfind hok => exact Step.vote hc ht hfind hok
    | pause => exact absurd hop (by simp [pauseInsensitive])
    | unpause => exact absurd hop (by simp [pauseInsensitive])
    | trade hact hv => exact absurd hop (by simp [pauseInsensitive])
    | emergency hle hok => exact absurd hop (by simp [pauseInsensitive])

/-- C9 witness: depositing into the concrete Waiting run fails with
PlatformPaused once the platform is paused. -/
theorem C9_pause_gating_witness :
    deposit (setPaused s0 true) 1 1 40 = .error .PlatformPaused :=
  C9_pause_gating.2.1 (setPaused s0 true) 1 1 40 rfl

theorem findPart_append_left {l l2 : List UserParticipation} {u : Nat}
    {p : UserParticipation} (h : findPart l u = some p) :
    findPart (l ++ l2) u = some p := by
  unfold findPart at *
  induction l with
  | nil => simp at h
  | cons a l ih =>
    rw [List.cons_append]
    cases hau : (a.user == u) with
    | true =>
      simp only [List.find?_cons, hau] at h ⊢
      exact h
    | false =>
      simp only [List.find?_cons, hau] at h ⊢
      exact ih h

/-- C5: withdrawals are at-most-once.  A successful withdraw requires
withdrawn = false and commits withdrawn = true; on a Settled run a record
with withdrawn = true always yields AlreadyWithdrawn (the failed
transaction leaves final_share, withdrawn and the vault unchanged); and
no committed operation ever resets withdrawn or final_share, so every
call after the first success keeps failing that way. -/
theorem C5_withdraw_at_most_once :
    (∀ (run : Run) (p p' : UserParticipation) (vault v' : Nat),
      withdraw run p vault = some (.ok (p', v')) →
      p.withdrawn = false ∧ p'.withdrawn = true) ∧
    (∀ (run : Run) (p : UserParticipation) (vault : Nat),
      run.status = .Settled → p.withdrawn = true →
      withdraw run p vault = some (.error .AlreadyWithdrawn)) ∧
    (∀ (s : St) (op : Op) (s' : St) (u : Nat) (p : UserParticipation),
      Step s op s' → findPart s.parts u = some p → p.withdrawn = true →
      ∃ q, findPart s'.parts u = some q ∧ q.withdrawn = true ∧
        q.final_share = p.final_share) := by
  refine ⟨?_, ?_, ?_⟩
  · intro run p p' vault v' hok
    obtain ⟨hst, hwd, us, hcs, hle, hp', hv'⟩ := withdraw_ok_iff.mp hok
    subst hp'
    exact ⟨hwd, rfl⟩
  · intro run p vault hst hwd
    unfold withdraw
    simp [hst, hwd]
  · intro s op s' u p hstep hfind hpwd
    cases hstep with
    | dep hrid ha hva hta hfree hok =>
      rename_i rid u2 a
      obtain ⟨h1, h2, h3, h4, h5, hs'⟩ := deposit_ok_iff.mp hok
      subst hs'
      by_cases huu : u2 = u
      · subst huu
        rw [hfree] at hfind
        simp at hfind
      · exact ⟨p, findPart_append_left hfind, hpwd, rfl⟩
    | strt hok =>
      obtain ⟨h1, h2, hs'⟩ := start_run_ok_iff.mp hok
      subst hs'
      exact ⟨p, hfind, hpwd, rfl⟩
    | settle hfb hok =>
      obtain ⟨h1, h2, h3, hs'⟩ := settle_run_ok_iff.mp hok
      subst hs'
      exact ⟨p, hfind, hpwd, rfl⟩
    | wdraw hfind2 hok =>
      rename_i u2 p2 p2' v2'
      obtain ⟨hst, hwd2, us, hcs, hle, hp2', hv2'⟩ := withdraw_ok_iff.mp hok
      subst hp2'
      by_cases huu : u2 = u
      · subst huu
        rw [hfind2] at hfind
        have hpp : p2 = p := by simpa using hfind
        subst hpp
        rw [hpwd] at hwd2
        simp at hwd2
      · have hq : (UserParticipation.user
            { p2 with final_share := us, withdrawn := true }) = u2 :=
          (findPart_mem hfind2).2
        refine ⟨p, ?_, hpwd, rfl⟩
        show findPart (setPart s.parts u2 _) u = some p
        rw [findPart_setPart_other hq (fun h => huu h.symm)]
        exact hfind
    | vote hc ht hfind2 hok =>
      rename_i u2 c t p2 p2'
      obtain ⟨hact, hp2'⟩ := update_vote_stats_ok_iff.mp hok
      subst hp2'
      by_cases huu : u2 = u
      · subst huu
        rw [hfind2] at hfind
        have hpp : p2 = p := by simpa using hfind
        subst hpp
        refine ⟨{ p2 with correct_votes := c, total_votes := t }, ?_, hpwd, rfl⟩
        exact findPart_setPart_self hfind2 (findPart_mem hfind2).2
      · have hq : (UserParticipation.user
            { p2 with correct_votes := c, total_votes := t }) = u2 :=
          (findPart_mem hfind2).2
        refine ⟨p, ?_, hpwd, rfl⟩
        show findPart (setPart s.parts u2 _) u = some p
        rw [findPart_setPart_other hq (fun h => huu h.symm)]
        exact hfind
    | pause => exact ⟨p, hfind, hpwd, rfl⟩
    | unpause => exact ⟨p, hfind, hpwd, rfl⟩
    | trade hact hv => exact ⟨p, hfind, hpwd, rfl⟩
    | emergency hle hok => exact ⟨p, hfind, hpwd, rfl⟩

/-- C5 witness: a second withdraw by user 1 on the concrete settled run,
after their successful one, fails with AlreadyWithdrawn. -/
theorem C5_withdraw_at_most_once_witness :
    withdraw s8.run pA2 s8.vault = some (.error .AlreadyWithdrawn) :=
  C5_withdraw_at_most_once.2.1 s8.run pA2 s8.vault rfl rfl

/-- Order of the lifecycle: Waiting before Active before Settled. -/
def statusRank : RunStatus → Nat
  | .Waiting => 0
  | .Active => 1
  | .Settled => 2

theorem step_status_cases {s : St} {op : Op} {s' : St} (h : Step s op s') :
    s'.run.status = s.run.status ∨
      (s.run.status = .Waiting ∧ s'.run.status = .Active ∧
        0 < s.run.participant_count ∧ ∃ now, op = .OpStart now) ∨
      (s.run.status = .Active ∧ s'.run.status = .Settled ∧
        ∃ fb sh now, op = .OpSettle fb sh now) := by
  cases h with
  | dep hrid ha hva hta hfree hok =>
    obtain ⟨h1, h2, h3, h4, h5, hs'⟩ := deposit_ok_iff.mp hok
    subst hs'
    left
    rfl
  | strt hok =>
    obtain ⟨h1, h2, hs'⟩ := start_run_ok_iff.mp hok
    subst hs'
    exact Or.inr (Or.inl ⟨h1, rfl, h2, _, rfl⟩)
  | settle hfb hok =>
    obtain ⟨h1, h2, h3, hs'⟩ := settle_run_ok_iff.mp hok
    subst hs'
    exact Or.inr (Or.inr ⟨h1, rfl, _, _, _, rfl⟩)
  | wdraw hfind hok => left; rfl
  | vote hc ht hfind hok => left; rfl
  | pause => left; rfl
  | unpause => left; rfl
  | trade hact hv => left; rfl
  | emergency hle hok => left; rfl

/-- C8: the run status only moves along Waiting, Active, Settled and never
backwards; start_run is the only operation leaving Waiting (and needs a
participant), settle_run the only one turning Active into Settled, nothing
changes a Settled status, and each operation invoked in a status it does
not expect returns InvalidRunStatus, NoParticipants, RunNotInWaitingPhase
or RunNotSettled as applicable. -/
theorem C8_lifecycle :
    (∀ (s : St) (op : Op) (s' : St), Step s op s' →
      statusRank s.run.status ≤ statusRank s'.run.status) ∧
    (∀ (s : St) (op : Op) (s' : St), Step s op s' →
      s.run.status = .Waiting → s'.run.status ≠ .Waiting →
      s'.run.status = .Active ∧ 0 < s.run.participant_count ∧
        ∃ now, op = .OpStart now) ∧
    (∀ (s : St) (op : Op) (s' : St), Step s op s' →
      s.run.status = .Active → s'.run.status ≠ .Active →
      s'.run.status = .Settled ∧ ∃ fb sh now, op = .OpSettle fb sh now) ∧
    (∀ (s : St) (op : Op) (s' : St), Step s op s' →
      s.run.status = .Settled → s'.run.status = .Settled) ∧
    (∀ (s : St) (now : Int), s.run.status ≠ .Waiting →
      start_run s now = .error .InvalidRunStatus) ∧
    (∀ (s : St) (now : Int), s.run.status = .Waiting →
      s.run.participant_count = 0 → start_run s now = .error .NoParticipants) ∧
    (∀ (s : St) (fb : Nat) (sh : List ParticipantShare) (now : Int),
      s.run.status ≠ .Active → settle_run s fb sh now = .error .InvalidRunStatus) ∧
    (∀ (s : St) (rid u a : Nat), s.platform.is_paused = false →
      s.run.status ≠ .Waiting → deposit s rid u a = .error .RunNotInWaitingPhase) ∧
    (∀ (run : Run) (p : UserParticipation) (vault : Nat), run.status ≠ .Settled →
      withdraw run p vault = some (.error .RunNotSettled)) ∧
    (∀ (run : Run) (p : UserParticipation) (c t : Nat), run.status ≠ .Active →
      update_vote_stats run p c t = .error .InvalidRunStatus) := by
  refine ⟨?_, ?_, ?_, ?_, ?_, ?_, ?_, ?_, ?_, ?_⟩
  · intro s op s' h
    rcases step_status_cases h with heq | ⟨h1, h2, _⟩ | ⟨h1, h2, _⟩
    · rw [heq]
    · rw [h1, h2]
      simp [statusRank]
    · rw [h1, h2]
      simp [statusRank]
  · intro s op s' h hw hne
    rcases step_status_cases h with heq | ⟨h1, h2, h3, h4⟩ | ⟨h1, h2, _⟩
    · rw [hw] at heq
      exact absurd heq hne
    · exact ⟨h2, h3, h4⟩
    · rw [hw] at h1
      simp at h1
  · intro s op s' h ha hne
    rcases step_status_cases h with heq | ⟨h1, h2, _⟩ | ⟨h1, h2, h3⟩
    · rw [ha] at heq
      exact absurd heq hne
    · rw [ha] at h1
      simp at h1
    · exact ⟨h2, h3⟩
  · intro s op s' h hs
    rcases step_status_cases h with heq | ⟨h1, h2, _⟩ | ⟨h1, h2, _⟩
    · rw [heq, hs]
    · rw [hs] at h1
      simp at h1
    · rw [hs] at h1
      simp at h1
  · intro s now h
    unfold start_run
    simp [h]
  · intro s now h1 h2
    unfold start_run
    simp [h1, h2]
  · intro s fb sh now h
    unfold settle_run
    simp [h]
  · intro s rid u a h1 h2
    unfold deposit
    simp [h1, h2]
  · intro run p vault h
    unfold withdraw
    simp [h]
  · intro run p c t h
    unfold update_vote_stats
    simp [h]

/-- C8 witness: start_run on the concrete settled run yields
InvalidRunStatus, and withdraw on the concrete active run yields
RunNotSettled. -/
theorem C8_lifecycle_witness :
    start_run s7 11 = .error .InvalidRunStatus ∧
      withdraw s3.run pA0 100 = some (.error .RunNotSettled) :=
  ⟨C8_lifecycle.2.2.2.2.1 s7 11 (by decide),
    C8_lifecycle.2.2.2.2.2.2.2.2.1 s3.run pA0 100 (by decide)⟩

/-- Exact value of the share computation when every intermediate stays in
u64 range: the truncating casts are the identity and the result is the
pure base-plus-bonus formula. -/
theorem computeShare_eq {D F d c : Nat} (hD : 0 < D) (hmul : d * F < U128CAP)
    (hbase : d * F / D < U64CAP)
    (hsum : d * F / D + d * F / D * (c * 100) / 10000 < U64CAP) :
    computeShare D F d c = some (d * F / D + d * F / D * (c * 100) / 10000) := by
  have hD0 : ¬ D = 0 := by omega
  have hbonus : d * F / D * (c * 100) / 10000 < U64CAP :=
    lt_of_le_of_lt (Nat.le_add_left _ _) hsum
  unfold computeShare
  split
  · rename_i heq
    unfold checked_mul_u128 at heq
    rw [if_pos hmul] at heq
    cases heq
  · rename_i n heq
    unfold checked_mul_u128 at heq
    rw [if_pos hmul] at heq
    have hn : d * F = n := by
      injection heq
    subst hn
    rw [if_neg hD0]
    simp only [Nat.mod_eq_of_lt hbase, Nat.mod_eq_of_lt hbonus]
    rw [if_pos hsum]

/-- C2 counterexample: on the reachable settled run (deposits 40 and 60,
final balance 120, both participants with 12 correct votes) after user 1
has withdrawn 53, user 2 meets every hypothesis of the claim (settled run,
positive total, not yet withdrawn) yet withdraw does not pay: the computed
entitlement 80 exceeds the remaining vault 67 and the call fails with
InsufficientVaultFunds, leaving the record unset. -/
theorem C2_counterexample :
    Reachable s8 ∧ s8.run.status = .Settled ∧ 0 < s8.run.total_deposited ∧
      findPart s8.parts 2 = some pB1 ∧ pB1.withdrawn = false ∧
      withdraw s8.run pB1 s8.vault = some (.error .InsufficientVaultFunds) :=
  ⟨reach_s8, rfl, by decide, rfl, rfl, rfl⟩

/-- C2 amended: under the additional guard that the entitlement does not
exceed the vault's current balance (the InsufficientVaultFunds check of
the source), withdraw on a settled run with positive total pays exactly
base + bonus with base = floor(d*F/D) and
bonus = floor(base*(c*100)/10000), records it in final_share, and sets
withdrawn. -/
theorem C2_withdraw_entitlement (run : Run) (p : UserParticipation)
    (vault base bonus : Nat)
    (hbase : base = p.deposit_amount * run.final_balance / run.total_deposited)
    (hbonus : bonus = base * (p.correct_votes * 100) / 10000)
    (hst : run.status = .Settled)
    (hD : 0 < run.total_deposited)
    (hwd : p.withdrawn = false)
    (hd : p.deposit_amount < U64CAP)
    (hF : run.final_balance < U64CAP)
    (hv : vault < U64CAP)
    (hent : base + bonus ≤ vault) :
    withdraw run p vault =
      some (.ok ({ p with final_share := base + bonus, withdrawn := true },
        vault - (base + bonus))) := by
  have hmul : p.deposit_amount * run.final_balance < U128CAP := by
    have h := Nat.mul_lt_mul'' hd hF
    have hcap : U64CAP * U64CAP = U128CAP := by
      unfold U64CAP U128CAP
      rw [← pow_add]
    rw [hcap] at h
    exact h
  subst hbonus
  subst hbase
  exact withdraw_ok_iff.mpr ⟨hst, hwd,
    p.deposit_amount * run.final_balance / run.total_deposited
      + p.deposit_amount * run.final_balance / run.total_deposited
        * (p.correct_votes * 100) / 10000,
    computeShare_eq hD hmul (by omega) (by omega), hent, rfl, rfl⟩

/-- C2 witness: the worked example of the specification, with the vault
still able to cover both: user 1 (deposit 40, 1 correct vote) is paid
exactly 48 and user 2 (deposit 60, 0 correct votes) exactly 72. -/
theorem C2_withdraw_entitlement_witness :
    withdraw ⟨1, .Settled, 100, 120, 2, 10, 100, 2, 0, 5, 9⟩
        ⟨1, 1, 40, 0, false, 1, 1⟩ 120 =
      some (.ok (⟨1, 1, 40, 48, true, 1, 1⟩, 72)) ∧
    withdraw ⟨1, .Settled, 100, 120, 2, 10, 100, 2, 0, 5, 9⟩
        ⟨2, 1, 60, 0, false, 0, 1⟩ 72 =
      some (.ok (⟨2, 1, 60, 72, true, 0, 1⟩, 0)) :=
  ⟨C2_withdraw_entitlement ⟨1, .Settled, 100, 120, 2, 10, 100, 2, 0, 5, 9⟩
      ⟨1, 1, 40, 0, false, 1, 1⟩ 120 48 0 (by decide) (by decide) rfl (by decide)
      rfl (by decide) (by decide) (by decide) (by decide),
    C2_withdraw_entitlement ⟨1, .Settled, 100, 120, 2, 10, 100, 2, 0, 5, 9⟩
      ⟨2, 1, 60, 0, false, 0, 1⟩ 72 72 0 (by decide) (by decide) rfl (by decide)
      rfl (by decide) (by decide) (by decide) (by decide)⟩

/-- C6 counterexample: on the reachable settled run (D = 100, F = 120,
participants 40 and 60 each with 12 correct votes) the entitlements
computed by the withdraw arithmetic are 53 and 80, summing to 133, which
exceeds F plus the claimed slack participant_count - 1 = 1 (121). -/
theorem C6_counterexample :
    Reachable s7 ∧ s7.run.final_balance = 120 ∧ s7.run.participant_count = 2 ∧
      (s7.parts.map (fun p =>
        (computeShare s7.run.total_deposited s7.run.final_balance p.deposit_amount
          p.correct_votes).getD 0)).sum = 133 ∧
      s7.run.final_balance + (s7.run.participant_count - 1) < 133 :=
  ⟨reach_s7, rfl, rfl, by decide, by decide⟩

theorem div_add_div_le {a b c : Nat} : a / c + b / c ≤ (a + b) / c := by
  rcases Nat.eq_zero_or_pos c with h | h
  · subst h
    simp
  · rw [Nat.le_div_iff_mul_le h]
    have ha := Nat.div_mul_le_self a c
    have hb := Nat.div_mul_le_self b c
    have hd : (a / c + b / c) * c = a / c * c + b / c * c := by ring
    omega

theorem sum_div_le (F D : Nat) (ds : List Nat) :
    (ds.map (fun d => d * F / D)).sum ≤ ds.sum * F / D := by
  induction ds with
  | nil => simp
  | cons a l ih =>
    simp only [List.map_cons, List.sum_cons]
    calc a * F / D + (l.map (fun d => d * F / D)).sum
        ≤ a * F / D + l.sum * F / D := Nat.add_le_add_left ih _
      _ ≤ (a * F + l.sum * F) / D := div_add_div_le
      _ = (a + l.sum) * F / D := by rw [← Nat.add_mul]

/-- C6 amended: the claimed bound holds for the base shares alone, without
the vote bonus: for any deposits summing to at most D, each zero-vote
entitlement computed by the withdraw arithmetic is exactly floor(d*F/D)
and their sum never exceeds F (so in particular stays within F plus any
slack); the counterexample shows the bound fails once bonuses are paid. -/
theorem C6_base_share_sum (ds : List Nat) (D F : Nat) (hD : 0 < D)
    (hDlt : D < U64CAP) (hF : F < U64CAP) (hsum : ds.sum ≤ D) :
    (∀ d ∈ ds, computeShare D F d 0 = some (d * F / D)) ∧
      (ds.map (fun d => d * F / D)).sum ≤ F := by
  have hbound : ∀ d ∈ ds, d * F / D ≤ F := by
    intro d hd
    have hdD : d ≤ D :=
      le_trans (List.single_le_sum (fun x _ => Nat.zero_le x) d hd) hsum
    calc d * F / D ≤ D * F / D := Nat.div_le_div_right (Nat.mul_le_mul_right F hdD)
      _ = F := Nat.mul_div_cancel_left F hD
  constructor
  · intro d hd
    have hdD : d ≤ D :=
      le_trans (List.single_le_sum (fun x _ => Nat.zero_le x) d hd) hsum
    have hmul : d * F < U128CAP := by
      have h := Nat.mul_lt_mul'' (lt_of_le_of_lt hdD hDlt) hF
      have hcap : U64CAP * U64CAP = U128CAP := by
        unfold U64CAP U128CAP
        rw [← pow_add]
      rw [hcap] at h
      exact h
    have hc : computeShare D F d 0 = some (d * F / D + d * F / D * (0 * 100) / 10000) :=
      computeShare_eq hD hmul (lt_of_le_of_lt (hbound d hd) hF)
        (by simpa using lt_of_le_of_lt (hbound d hd) hF)
    simpa using hc
  · calc (ds.map (fun d => d * F / D)).sum
        ≤ ds.sum * F / D := sum_div_le F D ds
      _ ≤ D * F / D := Nat.div_le_div_right (Nat.mul_le_mul_right F hsum)
      _ = F := Nat.mul_div_cancel_left F hD

/-- C6 amended witness: the bound evaluated on the concrete deposits 40
and 60 with D = 100, F = 120. -/
theorem C6_base_share_sum_witness :
    computeShare 100 120 40 0 = some (40 * 120 / 100) ∧
      ([40, 60].map (fun d => d * 120 / 100)).sum ≤ 120 :=
  ⟨(C6_base_share_sum [40, 60] 100 120 (by decide) (by decide) (by decide)
      (by decide)).1 40 (by decide),
    (C6_base_share_sum [40, 60] 100 120 (by decide) (by decide) (by decide)
      (by decide)).2⟩

/-- C7 counterexample: update_vote_stats performs no validation of the
counters, so on the reachable Active run the authority can store
correct_votes = 255 with total_votes = 0; the stored record violates
correct_votes <= total_votes and its bonus basis points, 25500, exceed
the claimed 1200 ceiling. -/
theorem C7_counterexample :
    Reachable s4x ∧ findPart s4x.parts 1 = some pAx ∧
      pAx.total_votes < pAx.correct_votes ∧ 1200 < pAx.correct_votes * 100 :=
  ⟨reach_s4x, rfl, by decide, by decide⟩

/-- The vote updates of a schedule are within the externally promised
bounds: cumulative counts with correct <= total <= 12 rounds. -/
def voteBounded : Op → Prop
  | .OpVote _ c t => c ≤ t ∧ t ≤ 12
  | _ => True

theorem trace_votes_bounded {s : St} {ops : List Op} {s' : St} (htr : Trace s ops s') :
    (∀ op ∈ ops, voteBounded op) →
    (∀ q ∈ s.parts, q.correct_votes ≤ q.total_votes ∧ q.correct_votes * 100 ≤ 1200) →
    ∀ q ∈ s'.parts, q.correct_votes ≤ q.total_votes ∧ q.correct_votes * 100 ≤ 1200 := by
  induction htr with
  | nil =>
    intro _ hinit
    exact hinit
  | cons h1 h2 ih =>
    intro hops hinit
    apply ih (fun op hop => hops op (List.mem_cons_of_mem _ hop))
    intro q hq
    cases h1 with
    | dep hrid ha hva hta hfree hok =>
      obtain ⟨g1, g2, g3, g4, g5, hs'⟩ := deposit_ok_iff.mp hok
      subst hs'
      rcases List.mem_append.mp hq with h | h
      · exact hinit q h
      · simp at h
        subst h
        exact ⟨by simp, by simp⟩
    | strt hok =>
      obtain ⟨g1, g2, hs'⟩ := start_run_ok_iff.mp hok
      subst hs'
      exact hinit q hq
    | settle hfb hok =>
      obtain ⟨g1, g2, g3, hs'⟩ := settle_run_ok_iff.mp hok
      subst hs'
      exact hinit q hq
    | wdraw hfind hok =>
      rename_i u2 p2 p2' v2'
      obtain ⟨g1, g2, us, g3, g4, hp', hv'⟩ := withdraw_ok_iff.mp hok
      subst hp'
      rcases mem_setPart hq with h | h
      · exact hinit q h
      · subst h
        exact hinit p2 (findPart_mem hfind).1
    | vote hc ht hfind hok =>
      rename_i u2 c t p2 p2'
      obtain ⟨g1, hp'⟩ := update_vote_stats_ok_iff.mp hok
      subst hp'
      rcases mem_setPart hq with h | h
      · exact hinit q h
      · subst h
        have hb := hops _ (List.mem_cons_self _ _)
        obtain ⟨hb1, hb2⟩ := hb
        refine ⟨hb1, ?_⟩
        show c * 100 ≤ 1200
        omega
    | pause => exact hinit q hq
    | unpause => exact hinit q hq
    | trade hact hv => exact hinit q hq
    | emergency hle hok => exact hinit q hq

/-- C7 amended: the code stores whatever counters the authority supplies,
so the invariants hold exactly when the external reporter respects its
contract: starting from any freshly created run, if every vote update in
the schedule satisfies correct <= total <= 12, then every participation
record satisfies correct_votes <= total_votes and its bonus basis points
correct_votes*100 never exceed 1200; the counterexample shows the code
itself enforces no cap. -/
theorem C7_vote_bounds (p : Platform) (rid mind maxd maxp : Nat) (now : Int)
    (sc s : St) (ops : List Op)
    (hcreate : create_run p rid mind maxd maxp now = .ok sc)
    (htr : Trace sc ops s)
    (hops : ∀ op ∈ ops, voteBounded op) :
    ∀ q ∈ s.parts, q.correct_votes ≤ q.total_votes ∧ q.correct_votes * 100 ≤ 1200 := by
  apply trace_votes_bounded htr hops
  obtain ⟨g1, g2, g3, g4, hs⟩ := create_run_ok_iff.mp hcreate
  subst hs
  intro q hq
  simp at hq

def s1a : St := ⟨⟨1500, 1, false⟩, ⟨1, .Active, 40, 0, 1, 10, 100, 2, 0, 5, 0⟩, [pA0], 40⟩

def pAv : UserParticipation := ⟨1, 1, 40, 0, false, 3, 5⟩

def sC7 : St := ⟨⟨1500, 1, false⟩, ⟨1, .Active, 40, 0, 1, 10, 100, 2, 0, 5, 0⟩, [pAv], 40⟩

/-- C7 amended witness: a concrete bounded schedule (deposit, start, a
3-of-5 vote update) whose final record satisfies both bounds. -/
theorem C7_vote_bounds_witness :
    pAv.correct_votes ≤ pAv.total_votes ∧ pAv.correct_votes * 100 ≤ 1200 := by
  refine C7_vote_bounds platform0 1 10 100 2 0 s0 sC7
    [.OpDeposit 1 1 40, .OpStart 5, .OpVote 1 3 5] rfl ?_ ?_ pAv (by decide)
  · exact Trace.cons (@Step.dep s0 1 1 40 s1 rfl (by decide) (by decide) (by decide) rfl rfl)
      (Trace.cons (@Step.strt s1 5 s1a rfl)
        (Trace.cons (@Step.vote s1a 1 3 5 pA0 pAv (by decide) (by decide) rfl rfl)
          Trace.nil))
  · intro op hop
    simp only [List.mem_cons, List.not_mem_nil, or_false] at hop
    rcases hop with rfl | rfl | rfl
    · trivial
    · trivial
    · exact ⟨by decide, by decide⟩

end InstinctTrading
